import Mathlib

/-!
Shallow embedding of `src/data/processes.rs`.

This file embeds the process-utilization collector/transform of the
repository (the `ProcessesRaw` sampler, the raw-record decoder
`process_raw_data`, and the derivation `get_values`) and proves properties
of the embedding.

Modelling conventions:

* Rust `u64` values are `Nat`; at the operations where the source performs
  wrapping `u64` arithmetic (release-build semantics) the reduction modulo
  `2 ^ 64` is written explicitly (`u64add`, `clampDelta`, the divisor
  product and the `*= 100` in `walkStep`).
* Rust panics (out-of-bounds indexing, `u64` division by zero) are modelled
  as explicit error values (`GvPanic`, `RawParseError.indexPanic`); typed
  `Result` errors surfaced with `?` are the remaining error values.
* Strings are `List Char`.
* `HashMap` becomes an association list in insertion order; because the
  iteration order of Rust's `HashMap` is unspecified and varies between
  runs, the derivation `getValuesWith` takes the iteration order of the
  process map as an explicit parameter.
-/

deriving instance DecidableEq for Except

/-- The constant `2 ^ 64`, the `u64` wrap-around modulus. -/
def U64 : Nat := 2 ^ 64

/-- The constant `2 ^ 63`; `u64` values from here up reinterpret (`as i64`) as negatives. -/
def HALF64 : Nat := 2 ^ 63

/-- Wrapping `u64` addition (release-build semantics of Rust `+`/`+=`). -/
def u64add (a b : Nat) : Nat := (a + b) % U64

/-- Strings of the source are modelled as lists of characters. -/
abbrev Str := List Char

/-- The `TimeEnum` of the repository's data module.  The type and its `Sub`
implementation are declared outside `src/`.  Modelled from the spec: a
snapshot timestamp (`dateTime`, whole seconds) or a duration (`timeDiff`,
seconds); the spec's end-to-end example (t = 2 s, `delta_time` = 2) fixes
seconds as the unit. -/
inductive TimeEnum where
  | dateTime (v : Nat)
  | timeDiff (v : Nat)
deriving DecidableEq, Repr, Inhabited

/-- Modelled from the spec: `TimeEnum` subtraction (used in `get_values` as
`value.time - time_zero` and `last.time - first.time`) yields the elapsed
duration; a zero-or-negative difference stays at zero (the spec's defensive
floor then replaces it with 1).  Mixed variants are not produced by the
source's call sites and are mapped to a zero duration. -/
def teSub : TimeEnum → TimeEnum → TimeEnum
  | .dateTime a, .dateTime b => .timeDiff (a - b)
  | .timeDiff a, .timeDiff b => .timeDiff (a - b)
  | _, _ => .timeDiff 0

/-- Modelled from the spec: the ordering used by
`entries.sort_by(|(a, _), (c, _)| a.cmp(&c))`; all keys reaching the sort
are `timeDiff` values (they are produced by `teSub`), ordered by value. -/
def timeLE : TimeEnum → TimeEnum → Bool
  | .dateTime a, .dateTime b => decide (a ≤ b)
  | .dateTime _, .timeDiff _ => true
  | .timeDiff _, .dateTime _ => false
  | .timeDiff a, .timeDiff b => decide (a ≤ b)

/-- Source struct `SampleEntry` (one `name;pid;cpu_time` record of a decoded snapshot). -/
structure SampleEntry where
  name : Str
  pid : Nat
  cpu_time : Nat
deriving DecidableEq, Repr, Inhabited

/-- Source struct `Processes` (one decoded snapshot: capture time plus its records). -/
structure Processes where
  time : TimeEnum
  entries : List SampleEntry
deriving DecidableEq, Repr, Inhabited

/-- Source struct `ProcessEntry` (per-name accumulation state; `samples` is the
`HashMap<TimeEnum, u64>` as an association list in insertion order). -/
structure ProcessEntry where
  name : Str
  total_cpu_time : Nat
  samples : List (TimeEnum × Nat)
deriving DecidableEq, Repr, Inhabited

/-- Source struct `Sample` (an emitted utilization point). -/
structure Sample where
  cpu_time : Nat
  time : TimeEnum
deriving DecidableEq, Repr, Inhabited

/-- Source struct `EndEntry` (one ranked process: name, accumulated total, emitted series). -/
structure EndEntry where
  name : Str
  total_cpu_time : Nat
  entries : List Sample
deriving DecidableEq, Repr, Inhabited

/-- Source struct `EndEntries` (the derivation result serialized by `get_values`). -/
structure EndEntries where
  collection_time : TimeEnum
  end_entries : List EndEntry
deriving DecidableEq, Repr, Inhabited

/-- The panics `get_values` can hit: `values[0]` / `entries[0]` indexing on
an empty vector, and `u64` division by zero in the percentage step. -/
inductive GvPanic where
  | indexPanic
  | divByZeroPanic
deriving DecidableEq, Repr, Inhabited

/-- How one raw record line can fail to decode in `process_raw_data`:
`indexPanic` models the out-of-bounds panic of `line_str[1]`/`line_str[2]`
(a process abort, not a returned error), `intParse` the `ParseIntError`
surfaced as a typed error by `pid.parse::<u64>()?` / `cpu_time.parse::<u64>()?`. -/
inductive RawParseError where
  | indexPanic
  | intParse
deriving DecidableEq, Repr, Inhabited

/-- The source lines
`if end_sample.cpu_time as i64 - prev_sample.cpu_time as i64 >= 0
   { end_sample.cpu_time -= prev_sample.cpu_time } else { end_sample.cpu_time = 0 }`
in release-build semantics: the wrapped `u64` difference is kept when its
`i64` reinterpretation is non-negative (i.e. it is `< 2 ^ 63`), else 0. -/
def clampDelta (cur prev : Nat) : Nat :=
  let d := (cur + (U64 - prev % U64)) % U64
  if d < HALF64 then d else 0

/-- The mutable state of the per-process loop body in `get_values`:
`end_entry.total_cpu_time`, `end_entry.entries`, `prev_sample`, `prev_time`. -/
structure WalkState where
  total : Nat
  emitted : List Sample
  prevSample : Sample
  prevTime : Nat
deriving DecidableEq, Repr, Inhabited

/-- One iteration of `for (time, cpu_time) in &entries` in `get_values`:
clamp the delta, accumulate it into the total, skip (without advancing the
baseline) unless the entry is a `TimeDiff` strictly later than `prev_time`,
otherwise divide by `ticks_per_second * (time_now - prev_time)` (a `u64`
division-by-zero panic if that wrapped product is zero), multiply by 100,
emit, and advance the baseline. -/
def walkStep (rate : Nat) (s : WalkState) (e : TimeEnum × Nat) : Except GvPanic WalkState :=
  let sample : Sample := ⟨e.2, e.1⟩
  let delta := clampDelta e.2 s.prevSample.cpu_time
  let total := u64add s.total delta
  match e.1 with
  | .timeDiff v =>
    if v - s.prevTime = 0 then
      .ok { s with total := total }
    else
      let divisor := (rate * (v - s.prevTime)) % U64
      if divisor = 0 then
        .error .divByZeroPanic
      else
        .ok { total := total
              emitted := s.emitted ++ [⟨delta / divisor * 100 % U64, e.1⟩]
              prevSample := sample
              prevTime := v }
  | .dateTime _ => .ok { s with total := total }

/-- The whole `for (time, cpu_time) in &entries` loop. -/
def walkAll (rate : Nat) (s : WalkState) : List (TimeEnum × Nat) → Except GvPanic WalkState
  | [] => .ok s
  | e :: es =>
    match walkStep rate s e with
    | .error p => .error p
    | .ok s' => walkAll rate s' es

/-- The comparison `(a, _) ≤ (c, _)` on timeline entries. -/
def ascSample (p q : TimeEnum × Nat) : Prop := timeLE p.1 q.1 = true

instance : DecidableRel ascSample := fun p q => decEq (timeLE p.1 q.1) true

instance : IsTotal (TimeEnum × Nat) ascSample where
  total p q := by
    cases hp : p.1 <;> cases hq : q.1 <;>
      simp [ascSample, timeLE, hp, hq, Nat.le_total]

instance : IsTrans (TimeEnum × Nat) ascSample where
  trans p q r hpq hqr := by
    cases hp : p.1 <;> cases hq : q.1 <;> cases hr : r.1 <;>
      simp_all [ascSample, timeLE] <;> omega

/-- Source line `entries.sort_by(|(a, _), (c, _)| a.cmp(&c))`: a stable ascending sort
of the per-process timeline (insertion sort is extensionally the unique
stable sort for this comparator, matching Rust's stable `sort_by`). -/
def sortAsc (l : List (TimeEnum × Nat)) : List (TimeEnum × Nat) :=
  List.insertionSort ascSample l

/-- The comparator `(b.total_cpu_time).cmp(&(a.total_cpu_time))`: descending
by accumulated total. -/
def rdesc (a b : EndEntry) : Prop := b.total_cpu_time ≤ a.total_cpu_time

instance : DecidableRel rdesc := fun _ _ => Nat.decLe _ _

instance : IsTotal EndEntry rdesc where
  total a b := Nat.le_total b.total_cpu_time a.total_cpu_time

instance : IsTrans EndEntry rdesc where
  trans _ _ _ hab hbc := Nat.le_trans hbc hab

/-- Source line `end_values.end_entries.sort_by(|a, b| (b.total_cpu_time).cmp(&(a.total_cpu_time)))`:
stable descending sort by `total_cpu_time`. -/
def sortDesc (l : List EndEntry) : List EndEntry :=
  List.insertionSort rdesc l

/-- The per-process body of `get_values`: sort the timeline (the `entries[0]`
index would panic on an empty map, which the builder never produces), seed
`prev_sample` and `prev_time` from the first entry, walk every entry
(including the first), and package name, total, and emitted series. -/
def processEntryToEnd (rate : Nat) (pe : ProcessEntry) : Except GvPanic EndEntry :=
  match sortAsc pe.samples with
  | [] => .error .indexPanic
  | e0 :: rest =>
    let pt0 := match e0.1 with
      | .timeDiff v => v
      | .dateTime _ => 0
    match walkAll rate ⟨0, [], ⟨e0.2, e0.1⟩, pt0⟩ (e0 :: rest) with
    | .error p => .error p
    | .ok s => .ok ⟨pe.name, s.total, s.emitted⟩

/-- The process map `HashMap<String, ProcessEntry>` as an association list
in insertion order. -/
abbrev PMap := List (Str × ProcessEntry)

/-- Association-list lookup (`process_map.get_mut(&entry.name)`). -/
def alookup (m : PMap) (k : Str) : Option ProcessEntry :=
  match m with
  | [] => none
  | (k', v) :: r => if k' = k then some v else alookup r k

/-- Source lines `pe.samples.get(&time)` / `pe.samples.insert(time, sample_cpu_time)`:
replace the value at an existing key by the (wrapping) sum, else append the
new key. -/
def upsertSample (t : TimeEnum) (c : Nat) : List (TimeEnum × Nat) → List (TimeEnum × Nat)
  | [] => [(t, c)]
  | (t', v) :: rest =>
    if t' = t then (t', u64add c v) :: rest else (t', v) :: upsertSample t c rest

/-- Merging one record's ticks into an existing per-process entry
(`pe.samples.insert(time, sample_cpu_time)`). -/
def updSamples (time : TimeEnum) (c : Nat) (pe : ProcessEntry) : ProcessEntry :=
  { pe with samples := upsertSample time c pe.samples }

/-- The body of `for entry in value.entries` in `get_values`: merge one
record into the process map at relative time `value.time - time_zero`. -/
def addEntry (tz t : TimeEnum) (m : PMap) (e : SampleEntry) : PMap :=
  let time := teSub t tz
  match alookup m e.name with
  | some _ =>
    m.map fun q => if q.1 = e.name then (q.1, updSamples time e.cpu_time q.2) else q
  | none => m ++ [(e.name, ⟨e.name, 0, [(time, e.cpu_time)]⟩)]

/-- Fold of `addEntry` over one snapshot's records. -/
def addEntries (tz t : TimeEnum) (m : PMap) : List SampleEntry → PMap
  | [] => m
  | e :: es => addEntries tz t (addEntry tz t m e) es

/-- Fold over all snapshots (`for value in values`). -/
def buildMapAux (tz : TimeEnum) (m : PMap) : List Processes → PMap
  | [] => m
  | v :: vs => buildMapAux tz (addEntries tz v.time m v.entries) vs

/-- The process map built by the first loop of `get_values`. -/
def buildMap (tz : TimeEnum) (vs : List Processes) : PMap :=
  buildMapAux tz [] vs

/-- The process map of a derivation input (empty input builds no map; the
source panics before reaching this point in that case). -/
def mapOf (vs : List Processes) : PMap :=
  match vs with
  | [] => []
  | v0 :: _ => buildMap v0.time vs

/-- Source loop `for (_, process) in process_map.iter_mut()`, iterating in the order
given by `order` (Rust's `HashMap` iteration order is unspecified): each
name found in the map contributes its `EndEntry`; a panic aborts the run. -/
def walkProcesses (rate : Nat) (m : PMap) : List Str → Except GvPanic (List EndEntry)
  | [] => .ok []
  | n :: ns =>
    match alookup m n with
    | none => walkProcesses rate m ns
    | some pe =>
      match processEntryToEnd rate pe with
      | .error p => .error p
      | .ok e =>
        match walkProcesses rate m ns with
        | .error p => .error p
        | .ok rest => .ok (e :: rest)

/-- The ranking tail of `get_values`: stable descending sort by
`total_cpu_time`, then `if len > 16 { keep [0..15] }`. -/
def rankAndCap (ends : List EndEntry) : List EndEntry :=
  let s := sortDesc ends
  if 16 < s.length then s.take 15 else s

/-- The function `get_values`, with the `HashMap` iteration order as a parameter.
`values[0]` on an empty input is the out-of-bounds panic; `total_time`
follows `if let TimeEnum::TimeDiff(v) = last - first { if v > 0 { .. } }`
with default 1. -/
def getValuesWith (order : List Str) (rate : Nat) (values : List Processes) :
    Except GvPanic EndEntries :=
  match values with
  | [] => .error .indexPanic
  | v0 :: _ =>
    let timeZero := v0.time
    let totalTime :=
      match teSub (values.getLastD v0).time timeZero with
      | .timeDiff v => if 0 < v then v else 1
      | .dateTime _ => 1
    let m := buildMap timeZero values
    match walkProcesses rate m order with
    | .error p => .error p
    | .ok ends => .ok ⟨.timeDiff totalTime, rankAndCap ends⟩

/-- One concrete run of `get_values`: iteration in map insertion order
(one of the orders a `HashMap` can produce). -/
def getValues (rate : Nat) (values : List Processes) : Except GvPanic EndEntries :=
  getValuesWith ((mapOf values).map Prod.fst) rate values

/-- Decimal digit characters. -/
def digitChar : Nat → Char
  | 0 => '0'
  | 1 => '1'
  | 2 => '2'
  | 3 => '3'
  | 4 => '4'
  | 5 => '5'
  | 6 => '6'
  | 7 => '7'
  | 8 => '8'
  | _ => '9'

/-- Most-significant-first decimal digits of `n`, with structural fuel
(`fuel ≥ n` suffices). -/
def natCharsAux : Nat → Nat → Str
  | 0, _ => []
  | _ + 1, 0 => []
  | fuel + 1, n + 1 =>
    natCharsAux fuel ((n + 1) / 10) ++ [digitChar ((n + 1) % 10)]

/-- Decimal rendering of a `Nat`, as Rust's `format!("{}", n)` produces it. -/
def natChars (n : Nat) : Str :=
  if n = 0 then ['0'] else natCharsAux n n

/-- ASCII decimal digit test. -/
def isDigitCh (c : Char) : Bool := decide (48 ≤ c.toNat) && decide (c.toNat ≤ 57)

/-- Value of a digit character. -/
def charDigit (c : Char) : Nat := c.toNat - 48

/-- Accumulated value of a digit string (most significant first). -/
def digitsVal (l : Str) : Nat := l.foldl (fun a c => a * 10 + charDigit c) 0

/-- Rust `str::parse::<u64>()` on a digit body: non-empty, all ASCII digits,
value below `2 ^ 64`. -/
def parseU64core (l : Str) : Option Nat :=
  if l = [] then none
  else if l.all isDigitCh then
    if digitsVal l < U64 then some (digitsVal l) else none
  else none

/-- Rust `str::parse::<u64>()`: an optional leading `+`, then digits. -/
def parseU64 : Str → Option Nat
  | [] => none
  | c :: r => if c = '+' then parseU64core r else parseU64core (c :: r)

/-- Split a character list at every occurrence of `sep`
(Rust `str::split`): always at least one piece. -/
def splitOnChar (sep : Char) : Str → List Str
  | [] => [[]]
  | c :: r =>
    let ps := splitOnChar sep r
    if c = sep then [] :: ps else (c :: ps.headD []) :: ps.tail

/-- Drop the final piece when it is empty (a trailing line break yields no
extra line in `BufRead::lines`). -/
def dropLastEmpty (ls : List Str) : List Str :=
  if ls.getLast? = some [] then ls.dropLast else ls

/-- Strip one trailing carriage return (`BufRead::lines` CRLF handling). -/
def stripCR (l : Str) : Str :=
  if l.getLast? = some '\r' then l.dropLast else l

/-- Rust `BufReader::new(raw_value.data.as_bytes()).lines()`. -/
def linesOf (s : Str) : List Str :=
  (dropLastEmpty (splitOnChar '\n' s)).map stripCR

/-- One line of `process_raw_data`: `line.split(';')`, then the indexing
`line_str[0] / [1] / [2]` (an out-of-bounds panic when fewer than 3 fields),
then `pid.parse::<u64>()?` and `cpu_time.parse::<u64>()?` (typed errors
surfaced with `?`). -/
def parseLine (l : Str) : Except RawParseError SampleEntry :=
  match splitOnChar ';' l with
  | name :: pid :: cpu :: _ =>
    match parseU64 pid with
    | none => .error .intParse
    | some p =>
      match parseU64 cpu with
      | none => .error .intParse
      | some c => .ok ⟨name, p, c⟩
  | _ => .error .indexPanic

/-- The record loop of `process_raw_data`: fail-fast over all lines. -/
def processLines : List Str → Except RawParseError (List SampleEntry)
  | [] => .ok []
  | l :: ls =>
    match parseLine l with
    | .error e => .error e
    | .ok entry =>
      match processLines ls with
      | .error e => .error e
      | .ok rest => .ok (entry :: rest)

/-- The decoder of the textual snapshot form used by `process_raw_data`. -/
def decodeRecords (s : Str) : Except RawParseError (List SampleEntry) :=
  processLines (linesOf s)

/-- The function `process_raw_data` on a raw snapshot: decode every record, fail-fast,
and package the snapshot capture time with the decoded entries. -/
def processRawData (time : TimeEnum) (data : Str) : Except RawParseError Processes :=
  match decodeRecords data with
  | .error e => .error e
  | .ok entries => .ok ⟨time, entries⟩

/-- One line of the sampler's output:
`format!("{};{};{}\n", name, pid, time_ticks)` without the line break. -/
def lineOf (e : SampleEntry) : Str :=
  e.name ++ ';' :: (natChars e.pid ++ ';' :: natChars e.cpu_time)

/-- The sampler's encoder (`collect_data`): one line per process, each
terminated by a line break. -/
def encodeEntries : List SampleEntry → Str
  | [] => []
  | e :: es => lineOf e ++ '\n' :: encodeEntries es

/-- JSON string (modelled from the spec's serialized form; no escaping,
which the name/number payloads in scope never need). -/
def jsonStr (s : Str) : Str := '"' :: (s ++ ['"'])

/-- Serde's externally tagged rendering of a `TimeEnum` value (modelled
from the spec: the serialized form carries the duration as an opaque
tagged value). -/
def jsonTime : TimeEnum → Str
  | .timeDiff v => "\x7b\"TimeDiff\":".toList ++ natChars v ++ ['\x7d']
  | .dateTime v => "\x7b\"DateTime\":".toList ++ natChars v ++ ['\x7d']

/-- Comma-joined JSON array elements. -/
def jsonList {α : Type} (f : α → Str) : List α → Str
  | [] => []
  | [a] => f a
  | a :: r => f a ++ ',' :: jsonList f r

/-- One serialized `Sample`. -/
def jsonSample (s : Sample) : Str :=
  "\x7b\"cpu_time\":".toList ++ natChars s.cpu_time ++ ",\"time\":".toList ++
    jsonTime s.time ++ ['\x7d']

/-- One serialized `EndEntry`. -/
def jsonEnd (e : EndEntry) : Str :=
  "\x7b\"name\":".toList ++ jsonStr e.name ++ ",\"total_cpu_time\":".toList ++
    natChars e.total_cpu_time ++ ",\"entries\":[".toList ++
    jsonList jsonSample e.entries ++ "]\x7d".toList

/-- Serialization `serde_json::to_string(&end_values)` (modelled from the spec's
`{ collection_time: .., end_entries: [ { name, total_cpu_time, entries } ] }`
shape, in struct field order). -/
def jsonOf (r : EndEntries) : Str :=
  "\x7b\"collection_time\":".toList ++ jsonTime r.collection_time ++
    ",\"end_entries\":[".toList ++ jsonList jsonEnd r.end_entries ++ "]\x7d".toList

/-- The full `get_values` result: the serialized string (or a panic). -/
def getValuesJson (order : List Str) (rate : Nat) (values : List Processes) :
    Except GvPanic Str :=
  match getValuesWith order rate values with
  | .error p => .error p
  | .ok r => .ok (jsonOf r)

/-- The spec's end-to-end example (§8): tick rate 100, process `a` with
200 cumulative ticks at t = 0 and 400 at t = 2 s. -/
def exC1 : List Processes :=
  [⟨.dateTime 10, [⟨['a'], 1, 200⟩]⟩, ⟨.dateTime 12, [⟨['a'], 1, 400⟩]⟩]

/-- Counter regression past `2 ^ 63`: baseline `2 ^ 63 + 1` ticks, then 0. -/
def exC4 : List Processes :=
  [⟨.dateTime 0, [⟨['a'], 1, 2 ^ 63 + 1⟩]⟩, ⟨.dateTime 1, [⟨['a'], 1, 0⟩]⟩]

/-- Three rises of `2 ^ 63 - 1` ticks each (with resets in between), so the
accumulated total exceeds the `u64` range. -/
def exC7 : List Processes :=
  [⟨.dateTime 0, [⟨['a'], 1, 0⟩]⟩,
   ⟨.dateTime 1, [⟨['a'], 1, 2 ^ 63 - 1⟩]⟩,
   ⟨.dateTime 2, [⟨['a'], 1, 0⟩]⟩,
   ⟨.dateTime 3, [⟨['a'], 1, 2 ^ 63 - 1⟩]⟩,
   ⟨.dateTime 4, [⟨['a'], 1, 0⟩]⟩,
   ⟨.dateTime 5, [⟨['a'], 1, 2 ^ 63 - 1⟩]⟩]

/-- Two processes that tie on `total_cpu_time` (both 0). -/
def exC9 : List Processes :=
  [⟨.dateTime 0, [⟨['a'], 1, 5⟩, ⟨['b'], 2, 5⟩]⟩]

/-- Two snapshots `2 ^ 32` seconds apart: with tick rate `2 ^ 32` the `u64`
product `rate * delta_time` wraps to 0. -/
def exC10 : List Processes :=
  [⟨.dateTime 0, [⟨['a'], 1, 0⟩]⟩, ⟨.dateTime (2 ^ 32), [⟨['a'], 1, 0⟩]⟩]

/-- A snapshot input whose two processes end with distinct totals. -/
def exC9b : List Processes :=
  [⟨.dateTime 0, [⟨['a'], 1, 0⟩, ⟨['b'], 2, 0⟩]⟩,
   ⟨.dateTime 1, [⟨['a'], 1, 300⟩, ⟨['b'], 2, 100⟩]⟩]

/-- Twenty distinct process names in one snapshot. -/
def exC20 : List Processes :=
  [⟨.dateTime 0,
    [⟨['a'], 1, 0⟩, ⟨['b'], 2, 0⟩, ⟨['c'], 3, 0⟩, ⟨['d'], 4, 0⟩, ⟨['e'], 5, 0⟩,
     ⟨['f'], 6, 0⟩, ⟨['g'], 7, 0⟩, ⟨['h'], 8, 0⟩, ⟨['i'], 9, 0⟩, ⟨['j'], 10, 0⟩,
     ⟨['k'], 11, 0⟩, ⟨['l'], 12, 0⟩, ⟨['m'], 13, 0⟩, ⟨['n'], 14, 0⟩, ⟨['o'], 15, 0⟩,
     ⟨['p'], 16, 0⟩, ⟨['q'], 17, 0⟩, ⟨['r'], 18, 0⟩, ⟨['s'], 19, 0⟩, ⟨['t'], 20, 0⟩]⟩]

/-- The numeric payload of a `TimeEnum` (the relative-time value of a
timeline key; every key the builder produces is a `timeDiff`). -/
def timeVal : TimeEnum → Nat
  | .timeDiff v => v
  | .dateTime v => v

/-- All process names occurring in a snapshot sequence, in order, with
repetitions. -/
def allProcNames : List Processes → List Str
  | [] => []
  | v :: vs => v.entries.map SampleEntry.name ++ allProcNames vs

/-- The contribution of one map key to the iteration result (`none` when
the name is absent or its processing panics). -/
def endOf (rate : Nat) (m : PMap) (n : Str) : Option EndEntry :=
  match alookup m n with
  | none => none
  | some pe => (processEntryToEnd rate pe).toOption

/-- Well-formedness of a per-process entry as the map builder produces it:
a non-empty timeline, distinct relative times, and every relative time a
`timeDiff` (it came out of `teSub`). -/
def PEntryWF (pe : ProcessEntry) : Prop :=
  pe.samples ≠ [] ∧ (pe.samples.map Prod.fst).Nodup ∧
    ∀ p ∈ pe.samples, ∃ v, p.1 = TimeEnum.timeDiff v

/-- Well-formedness of the process map: distinct keys, well-formed entries. -/
def PMapWF (m : PMap) : Prop :=
  (m.map Prod.fst).Nodup ∧ ∀ q ∈ m, PEntryWF q.2

/-! ## Helper lemmas about the walk -/

theorem walkStep_total (rate : Nat) (s : WalkState) (e : TimeEnum × Nat) (s' : WalkState)
    (h : walkStep rate s e = Except.ok s') :
    s'.total = (s.total + clampDelta e.2 s.prevSample.cpu_time) % U64 := by
  obtain ⟨t, c⟩ := e
  cases t with
  | dateTime v =>
    simp only [walkStep, Except.ok.injEq] at h
    subst h
    rfl
  | timeDiff v =>
    by_cases hv : v - s.prevTime = 0
    · simp only [walkStep, hv, if_true, Except.ok.injEq] at h
      subst h
      rfl
    · by_cases hd : (rate * (v - s.prevTime)) % U64 = 0
      · simp only [walkStep, hv, if_false, hd, if_true] at h
        exact absurd h (by simp)
      · simp only [walkStep, hv, if_false, hd, Except.ok.injEq] at h
        subst h
        rfl

theorem walkStep_error (rate : Nat) (s : WalkState) (e : TimeEnum × Nat) (p : GvPanic)
    (h : walkStep rate s e = Except.error p) : p = GvPanic.divByZeroPanic := by
  obtain ⟨t, c⟩ := e
  cases t with
  | dateTime v => simp [walkStep] at h
  | timeDiff v =>
    by_cases hv : v - s.prevTime = 0
    · simp [walkStep, hv] at h
    · by_cases hd : (rate * (v - s.prevTime)) % U64 = 0
      · simp only [walkStep, hv, if_false, hd, if_true, Except.error.injEq] at h
        exact h.symm
      · simp [walkStep, hv, hd] at h

/-! ## C1: emitted percentage formula and the spec's end-to-end example -/

/-- C1: for a timeline entry at a strictly later relative time than the
baseline, the emitted sample's `cpu_percent` is
`delta_ticks / (tick_rate * delta_time) * 100` in the source's `u64`
arithmetic, with `delta_ticks` the clamped difference and
`delta_time = t - prev_time`; the accumulated total grows by `delta_ticks`
and the baseline advances.  Moreover the spec's end-to-end example
(tick rate 100, 200 ticks at t = 0, 400 ticks at t = 2 s) yields exactly
one sample, at t = 2 s, with `cpu_percent` 100 and total 200. -/
theorem c1_cpu_percent_formula :
    (∀ (rate : Nat) (s : WalkState) (t c : Nat),
      s.prevTime < t →
      (rate * (t - s.prevTime)) % U64 ≠ 0 →
      walkStep rate s (TimeEnum.timeDiff t, c) =
        Except.ok
          ⟨u64add s.total (clampDelta c s.prevSample.cpu_time),
           s.emitted ++
             [⟨clampDelta c s.prevSample.cpu_time / ((rate * (t - s.prevTime)) % U64) * 100 % U64,
               TimeEnum.timeDiff t⟩],
           ⟨c, TimeEnum.timeDiff t⟩, t⟩) ∧
    getValues 100 exC1 =
      Except.ok ⟨TimeEnum.timeDiff 2, [⟨['a'], 200, [⟨100, TimeEnum.timeDiff 2⟩]⟩]⟩ := by
  constructor
  · intro rate s t c ht hdiv
    have h1 : ¬(t - s.prevTime = 0) := by omega
    simp [walkStep, h1, hdiv]
  · decide

/-- C1 witness: the formula instantiated at the example's second entry. -/
theorem c1_cpu_percent_formula_witness :
    walkStep 100 ⟨0, [], ⟨200, TimeEnum.timeDiff 0⟩, 0⟩ (TimeEnum.timeDiff 2, 400) =
      Except.ok ⟨200, [⟨100, TimeEnum.timeDiff 2⟩], ⟨400, TimeEnum.timeDiff 2⟩, 2⟩ :=
  (c1_cpu_percent_formula.1 100 ⟨0, [], ⟨200, TimeEnum.timeDiff 0⟩, 0⟩ 2 400 (by decide)
    (by decide)).trans (by decide)

/-! ## C3: zero-duration entries accumulate but emit nothing -/

/-- C3: when an entry's relative time equals the baseline's relative time,
the step emits no sample, the clamped delta is still accumulated into the
total (accumulation precedes the time-skip check), and neither
`prev_sample` nor `prev_time` advances. -/
theorem c3_zero_dt_accumulates_without_emitting :
    ∀ (rate : Nat) (s : WalkState) (c : Nat),
      walkStep rate s (TimeEnum.timeDiff s.prevTime, c) =
        Except.ok { s with total := u64add s.total (clampDelta c s.prevSample.cpu_time) } := by
  intro rate s c
  simp [walkStep]

/-! ## C4: the regression clamp is defeated past `2 ^ 63` -/

/-- C4: at the failing input `exC4` (baseline `2 ^ 63 + 1` cumulative
ticks, next sample 0 — a regression), the release-build `u64`/`i64`
arithmetic of the source lets the wrapped difference `2 ^ 63 - 1` through
the clamp: the step contributes `2 ^ 63 - 1 ≠ 0` to `total_cpu_consumed`
and emits a huge `cpu_percent`, contradicting the claim that every
regression step contributes 0. -/
theorem c4_regression_clamp_defeated :
    getValues 100 exC4 =
      Except.ok
        ⟨TimeEnum.timeDiff 1,
         [⟨['a'], 9223372036854775807, [⟨9223372036854775800, TimeEnum.timeDiff 1⟩]⟩]⟩ ∧
    clampDelta 0 (2 ^ 63 + 1) = 2 ^ 63 - 1 ∧ (2 ^ 63 - 1 : Nat) ≠ 0 := by
  refine ⟨by decide, by decide, by decide⟩

/-! ## C6: empty input panics instead of returning a typed error -/

/-- C6 counterexample: on the empty snapshot sequence the derivation hits
the `values[0]` out-of-bounds panic (`GvPanic.indexPanic`, a process
abort), not a typed `NoData` error — no such error value exists in the
source. -/
theorem c6_counterexample :
    getValues 100 [] = Except.error GvPanic.indexPanic := rfl

/-- C6 (amended): for every iteration order and tick rate, derivation on an
empty snapshot sequence fails with the out-of-bounds index panic. -/
theorem c6_empty_input_panics :
    ∀ (order : List Str) (rate : Nat),
      getValuesWith order rate [] = Except.error GvPanic.indexPanic := by
  intro order rate
  rfl

/-! ## C7: tick accumulation wraps, no Overflow error exists -/

/-- C7 counterexample: at `exC7` the per-process tick deltas sum to
`3 * (2 ^ 63 - 1) ≥ 2 ^ 64`, yet the derivation succeeds with the total
silently wrapped modulo `2 ^ 64` — it does not return an `Overflow` error
(none exists in the source). -/
theorem c7_counterexample :
    getValues 1 exC7 =
      Except.ok
        ⟨TimeEnum.timeDiff 5,
         [⟨['a'], 9223372036854775805,
           [⟨18446744073709551516, TimeEnum.timeDiff 1⟩, ⟨0, TimeEnum.timeDiff 2⟩,
            ⟨18446744073709551516, TimeEnum.timeDiff 3⟩, ⟨0, TimeEnum.timeDiff 4⟩,
            ⟨18446744073709551516, TimeEnum.timeDiff 5⟩]⟩]⟩ ∧
    U64 ≤ 3 * (2 ^ 63 - 1) ∧ (3 * (2 ^ 63 - 1)) % U64 = 9223372036854775805 := by
  refine ⟨by decide, by decide, by decide⟩

/-- C7 (amended): accumulating a tick delta is the wrapping `u64` addition
`(total + delta) % 2 ^ 64`, and the walk's only failure mode is the
division-by-zero panic — exceeding the integer range never produces an
error, it wraps silently. -/
theorem c7_accumulation_wraps_silently :
    (∀ (rate : Nat) (s : WalkState) (e : TimeEnum × Nat) (s' : WalkState),
      walkStep rate s e = Except.ok s' →
      s'.total = (s.total + clampDelta e.2 s.prevSample.cpu_time) % U64) ∧
    (∀ (rate : Nat) (s : WalkState) (e : TimeEnum × Nat) (p : GvPanic),
      walkStep rate s e = Except.error p → p = GvPanic.divByZeroPanic) :=
  ⟨walkStep_total, walkStep_error⟩

/-- C7 witness: the wrapping-total equation at a concrete step. -/
theorem c7_accumulation_wraps_silently_witness :
    (12 : Nat) = (5 + clampDelta 10 3) % U64 :=
  c7_accumulation_wraps_silently.1 1 ⟨5, [], ⟨3, TimeEnum.timeDiff 0⟩, 0⟩
    (TimeEnum.timeDiff 0, 10) ⟨12, [], ⟨3, TimeEnum.timeDiff 0⟩, 0⟩ (by decide)

/-! ## Helper lemmas about the record parser -/

theorem parseLine_short (l : Str) (h : (splitOnChar ';' l).length < 3) :
    parseLine l = Except.error RawParseError.indexPanic := by
  unfold parseLine
  cases hs : splitOnChar ';' l with
  | nil => rfl
  | cons a t =>
    cases t with
    | nil => rfl
    | cons b t' =>
      cases t' with
      | nil => rfl
      | cons c t'' => exfalso; simp [hs] at h; omega

theorem parseLine_eq_of_split (l a b c : Str) (t : List Str)
    (hs : splitOnChar ';' l = a :: b :: c :: t) :
    parseLine l =
      match parseU64 b with
      | none => Except.error RawParseError.intParse
      | some p =>
        match parseU64 c with
        | none => Except.error RawParseError.intParse
        | some q => Except.ok ⟨a, p, q⟩ := by
  unfold parseLine
  rw [hs]

theorem parseLine_error_of_fields (l : Str) (h : 3 ≤ (splitOnChar ';' l).length)
    (e : RawParseError) (he : parseLine l = Except.error e) : e = RawParseError.intParse := by
  cases hs : splitOnChar ';' l with
  | nil => rw [hs] at h; simp at h
  | cons a t =>
    cases t with
    | nil => rw [hs] at h; simp at h
    | cons b t' =>
      cases t' with
      | nil => rw [hs] at h; simp at h
      | cons c t'' =>
        rw [parseLine_eq_of_split l a b c t'' hs] at he
        cases hp : parseU64 b with
        | none => simp [hp] at he; exact he.symm
        | some p =>
          rw [hp] at he
          cases hc : parseU64 c with
          | none => simp [hc] at he; exact he.symm
          | some q => simp [hc] at he

theorem processLines_intParse (ls : List Str)
    (hf : ∀ l ∈ ls, 3 ≤ (splitOnChar ';' l).length)
    (hb : ∃ l ∈ ls, parseLine l = Except.error RawParseError.intParse) :
    processLines ls = Except.error RawParseError.intParse := by
  induction ls with
  | nil => obtain ⟨l, hl, _⟩ := hb; exact absurd hl (by simp)
  | cons l ls ih =>
    cases he : parseLine l with
    | error e =>
      have : e = RawParseError.intParse :=
        parseLine_error_of_fields l (hf l (by simp)) e he
      subst this
      simp [processLines, he]
    | ok entry =>
      obtain ⟨l', hl', hbad⟩ := hb
      rcases List.mem_cons.1 hl' with rfl | hmem
      · rw [he] at hbad; exact absurd hbad (by simp)
      · have := ih (fun x hx => hf x (List.mem_cons_of_mem _ hx)) ⟨l', hmem, hbad⟩
        simp [processLines, he, this]

theorem processLines_error_of_short (ls : List Str)
    (hb : ∃ l ∈ ls, (splitOnChar ';' l).length < 3) :
    ∃ e, processLines ls = Except.error e := by
  induction ls with
  | nil => obtain ⟨l, hl, _⟩ := hb; exact absurd hl (by simp)
  | cons l ls ih =>
    cases he : parseLine l with
    | error e => exact ⟨e, by simp [processLines, he]⟩
    | ok entry =>
      obtain ⟨l', hl', hshort⟩ := hb
      rcases List.mem_cons.1 hl' with rfl | hmem
      · rw [parseLine_short l' hshort] at he; exact absurd he (by simp)
      · obtain ⟨e, hrec⟩ := ih ⟨l', hmem, hshort⟩
        exact ⟨e, by simp [processLines, he, hrec]⟩

/-! ## C5: malformed records -/

/-- C5 counterexample: a record line with fewer than 3 semicolon-separated
fields (`"ab"`) makes `process_raw_data` hit the `line_str[1]`
out-of-bounds panic — a process abort, modelled as
`RawParseError.indexPanic` — not a typed `MalformedRecord` decode error
(no such error value exists in the source). -/
theorem c5_counterexample :
    processRawData (TimeEnum.timeDiff 0) ['a', 'b'] =
      Except.error RawParseError.indexPanic := rfl

/-- C5 (amended): a non-integer pid or tick field fails the whole decode
with the typed `ParseIntError` (`intParse`) and no partial result, while a
record with fewer than 3 semicolon-separated fields makes the parse fail
via the indexing panic rather than a typed decode error. -/
theorem c5_decode_failures :
    (∀ (t : TimeEnum) (s : Str),
      (∀ l ∈ linesOf s, 3 ≤ (splitOnChar ';' l).length) →
      (∃ l ∈ linesOf s, ∃ name pid cpu rest,
        splitOnChar ';' l = name :: pid :: cpu :: rest ∧
          (parseU64 pid = none ∨ parseU64 cpu = none)) →
      processRawData t s = Except.error RawParseError.intParse) ∧
    (∀ (t : TimeEnum) (s : Str),
      (∃ l ∈ linesOf s, (splitOnChar ';' l).length < 3) →
      ∃ e, processRawData t s = Except.error e) := by
  constructor
  · intro t s hf hb
    obtain ⟨l, hl, name, pid, cpu, rest, hsplit, hbad⟩ := hb
    have hline : parseLine l = Except.error RawParseError.intParse := by
      rw [parseLine_eq_of_split l name pid cpu rest hsplit]
      rcases hbad with hp | hc
      · rw [hp]
      · cases hp : parseU64 pid with
        | none => rfl
        | some p => rw [hc]
    have := processLines_intParse (linesOf s) hf ⟨l, hl, hline⟩
    unfold processRawData decodeRecords
    simp [this]
  · intro t s hb
    obtain ⟨e, he⟩ := processLines_error_of_short (linesOf s) hb
    exact ⟨e, by unfold processRawData decodeRecords; simp [he]⟩

/-- C5 witness: a 3-field record with a non-integer tick field decodes to
the typed error; a 2-field record fails the parse as well. -/
theorem c5_decode_failures_witness :
    processRawData (TimeEnum.timeDiff 0) "x;1;z\n".toList =
        Except.error RawParseError.intParse ∧
    ∃ e, processRawData (TimeEnum.timeDiff 0) "ab\n".toList = Except.error e :=
  ⟨c5_decode_failures.1 (TimeEnum.timeDiff 0) "x;1;z\n".toList (by decide)
      ⟨['x', ';', '1', ';', 'z'], by decide,
        ['x'], ['1'], ['z'], [], by decide, Or.inr (by decide)⟩,
   c5_decode_failures.2 (TimeEnum.timeDiff 0) "ab\n".toList
      ⟨['a', 'b'], by decide, by decide⟩⟩

/-! ## Helper lemmas about digits, rendering, and splitting -/

theorem getLast?_mem_of_eq {α : Type} (l : List α) (a : α) (h : l.getLast? = some a) :
    a ∈ l := by
  induction l with
  | nil => simp at h
  | cons x t ih =>
    cases ht : t with
    | nil => subst ht; simp at h; simp [h]
    | cons y t' =>
      subst ht
      rw [List.getLast?_cons_cons] at h
      exact List.mem_cons_of_mem _ (ih h)

theorem digitChar_spec (d : Nat) (h : d < 10) :
    isDigitCh (digitChar d) = true ∧ charDigit (digitChar d) = d := by
  interval_cases d <;> exact ⟨by decide, by decide⟩

theorem isDigitCh_ne (c : Char) (h : isDigitCh c = true) :
    c ≠ '+' ∧ c ≠ ';' ∧ c ≠ '\n' ∧ c ≠ '\r' := by
  refine ⟨?_, ?_, ?_, ?_⟩ <;> intro hc <;> subst hc <;> exact absurd h (by decide)

theorem natCharsAux_eq_digits (fuel n : Nat) (h : n ≤ fuel) :
    natCharsAux fuel n = ((Nat.digits 10 n).map digitChar).reverse := by
  induction fuel generalizing n with
  | zero =>
    interval_cases n
    rw [Nat.digits_zero]
    rfl
  | succ f ih =>
    cases n with
    | zero =>
      rw [Nat.digits_zero]
      rfl
    | succ m =>
      have hdiv : (m + 1) / 10 ≤ f := by
        have := Nat.div_lt_self (Nat.succ_pos m) (by norm_num : 1 < 10)
        omega
      rw [show natCharsAux (f + 1) (m + 1) =
            natCharsAux f ((m + 1) / 10) ++ [digitChar ((m + 1) % 10)] from rfl,
        ih ((m + 1) / 10) hdiv,
        Nat.digits_def' (by norm_num : 1 < 10) (Nat.succ_pos m), List.map_cons,
        List.reverse_cons]

theorem natChars_eq_digits (n : Nat) :
    natChars n = if n = 0 then ['0'] else ((Nat.digits 10 n).map digitChar).reverse := by
  unfold natChars
  by_cases h : n = 0
  · rw [if_pos h, if_pos h]
  · rw [if_neg h, if_neg h, natCharsAux_eq_digits n n (Nat.le_refl n)]

theorem natChars_ne_nil (n : Nat) : natChars n ≠ [] := by
  rw [natChars_eq_digits]
  by_cases h : n = 0
  · simp [h]
  · simp [h, Nat.digits_ne_nil_iff_ne_zero.2 h]

theorem natChars_all_digits (n : Nat) : ∀ c ∈ natChars n, isDigitCh c = true := by
  intro c hc
  rw [natChars_eq_digits] at hc
  by_cases h : n = 0
  · simp [h] at hc; subst hc; decide
  · simp only [h, if_false, List.mem_reverse, List.mem_map] at hc
    obtain ⟨d, hd, rfl⟩ := hc
    exact (digitChar_spec d (Nat.digits_lt_base (by norm_num) hd)).1

theorem digitsVal_natChars (n : Nat) : digitsVal (natChars n) = n := by
  by_cases h : n = 0
  · subst h; decide
  · have hfold : ∀ L : List Nat, (∀ d ∈ L, d < 10) →
        L.foldr (fun d a => a * 10 + charDigit (digitChar d)) 0 = Nat.ofDigits 10 L := by
      intro L
      induction L with
      | nil => intro _; simp [Nat.ofDigits]
      | cons d L ih =>
        intro hL
        have hd : d < 10 := hL d (by simp)
        rw [List.foldr_cons, ih (fun x hx => hL x (List.mem_cons_of_mem _ hx)),
          Nat.ofDigits_cons, (digitChar_spec d hd).2]
        omega
    unfold digitsVal
    rw [natChars_eq_digits, if_neg h, List.foldl_reverse, List.foldr_map,
      hfold _ (fun d hd => Nat.digits_lt_base (by norm_num) hd), Nat.ofDigits_digits]

theorem parseU64core_natChars (n : Nat) (h : n < U64) :
    parseU64core (natChars n) = some n := by
  have hall : (natChars n).all isDigitCh = true :=
    List.all_eq_true.2 (natChars_all_digits n)
  unfold parseU64core
  rw [if_neg (natChars_ne_nil n), if_pos hall, digitsVal_natChars, if_pos h]

theorem parseU64_natChars (n : Nat) (h : n < U64) : parseU64 (natChars n) = some n := by
  cases hn : natChars n with
  | nil => exact absurd hn (natChars_ne_nil n)
  | cons c cs =>
    have hcd : isDigitCh c = true := natChars_all_digits n c (by rw [hn]; simp)
    have hplus : ¬(c = '+') := (isDigitCh_ne c hcd).1
    have hstep : parseU64 (c :: cs) =
        if c = '+' then parseU64core cs else parseU64core (c :: cs) := rfl
    rw [hstep, if_neg hplus, ← hn, parseU64core_natChars n h]

theorem splitOnChar_cons (sep c : Char) (r : Str) :
    splitOnChar sep (c :: r) =
      if c = sep then [] :: splitOnChar sep r
      else (c :: (splitOnChar sep r).headD []) :: (splitOnChar sep r).tail := rfl

theorem splitOnChar_ne_nil (sep : Char) (l : Str) : splitOnChar sep l ≠ [] := by
  induction l with
  | nil => simp [splitOnChar]
  | cons c r ih =>
    rw [splitOnChar_cons]
    by_cases h : c = sep <;> simp [h]

theorem splitOnChar_append (sep : Char) (xs ys : Str) (h : sep ∉ xs) :
    splitOnChar sep (xs ++ sep :: ys) = xs :: splitOnChar sep ys := by
  induction xs with
  | nil => simp [splitOnChar]
  | cons c xs ih =>
    have hc : ¬(c = sep) := fun hc => h (by simp [hc])
    have hxs : sep ∉ xs := fun hm => h (List.mem_cons_of_mem _ hm)
    rw [List.cons_append, splitOnChar_cons, if_neg hc, ih hxs]
    rfl

theorem splitOnChar_no_sep (sep : Char) (xs : Str) (h : sep ∉ xs) :
    splitOnChar sep xs = [xs] := by
  induction xs with
  | nil => rfl
  | cons c xs ih =>
    have hc : ¬(c = sep) := fun hc => h (by simp [hc])
    have hxs : sep ∉ xs := fun hm => h (List.mem_cons_of_mem _ hm)
    rw [splitOnChar_cons, if_neg hc, ih hxs]
    rfl

theorem dropLastEmpty_cons (x : Str) (p : List Str) (hp : p ≠ []) :
    dropLastEmpty (x :: p) = x :: dropLastEmpty p := by
  cases p with
  | nil => exact absurd rfl hp
  | cons y t =>
    unfold dropLastEmpty
    rw [List.getLast?_cons_cons]
    by_cases h : (y :: t).getLast? = some []
    · rw [if_pos h, if_pos h, List.dropLast_cons₂]
    · rw [if_neg h, if_neg h]

theorem linesOf_cons_line (xs ys : Str) (h : '\n' ∉ xs) :
    linesOf (xs ++ '\n' :: ys) = stripCR xs :: linesOf ys := by
  unfold linesOf
  rw [splitOnChar_append '\n' xs ys h,
    dropLastEmpty_cons xs _ (splitOnChar_ne_nil '\n' ys), List.map_cons]

theorem lineOf_no_newline (e : SampleEntry) (h : '\n' ∉ e.name) : '\n' ∉ lineOf e := by
  unfold lineOf
  intro hm
  rcases List.mem_append.1 hm with hn | hn
  · exact h hn
  · rcases List.mem_cons.1 hn with he | hn
    · exact absurd he (by decide)
    · rcases List.mem_append.1 hn with hn | hn
      · exact absurd (natChars_all_digits e.pid '\n' hn) (by decide)
      · rcases List.mem_cons.1 hn with he | hn
        · exact absurd he (by decide)
        · exact absurd (natChars_all_digits e.cpu_time '\n' hn) (by decide)

theorem stripCR_lineOf (e : SampleEntry) : stripCR (lineOf e) = lineOf e := by
  unfold stripCR
  have hlast : (lineOf e).getLast? = (natChars e.cpu_time).getLast? := by
    have hshape : lineOf e =
        (e.name ++ ';' :: natChars e.pid ++ [';']) ++ natChars e.cpu_time := by
      unfold lineOf
      simp
    rw [hshape, List.getLast?_append_of_ne_nil _ (natChars_ne_nil e.cpu_time)]
  cases hc : (natChars e.cpu_time).getLast? with
  | none =>
    rw [hlast, hc]
    simp
  | some c =>
    have : isDigitCh c = true :=
      natChars_all_digits e.cpu_time c (getLast?_mem_of_eq _ c hc)
    have hne : ¬((lineOf e).getLast? = some '\r') := by
      rw [hlast, hc]
      intro hcc
      obtain rfl : c = '\r' := by injection hcc
      exact absurd this (by decide)
    rw [if_neg hne]

theorem parseLine_lineOf (e : SampleEntry) (hn : ';' ∉ e.name)
    (hp : e.pid < U64) (hc : e.cpu_time < U64) : parseLine (lineOf e) = Except.ok e := by
  have hsplit : splitOnChar ';' (lineOf e) =
      e.name :: natChars e.pid :: [natChars e.cpu_time] := by
    unfold lineOf
    rw [splitOnChar_append ';' e.name _ hn,
      splitOnChar_append ';' (natChars e.pid) _
        (fun hm => absurd (natChars_all_digits e.pid ';' hm) (by decide)),
      splitOnChar_no_sep ';' (natChars e.cpu_time)
        (fun hm => absurd (natChars_all_digits e.cpu_time ';' hm) (by decide))]
  rw [parseLine_eq_of_split (lineOf e) e.name (natChars e.pid) (natChars e.cpu_time) [] hsplit,
    parseU64_natChars e.pid hp, parseU64_natChars e.cpu_time hc]

/-! ## C8: round-trip of the line format -/

/-- C8 counterexample: a name containing the field separator breaks the
round trip — encoding `("a;b", 1, 2)` and decoding does not give back the
original triple (the decoder errors on the non-integer second field). -/
theorem c8_counterexample :
    decodeRecords (encodeEntries [⟨['a', ';', 'b'], 1, 2⟩]) =
        Except.error RawParseError.intParse ∧
    decodeRecords (encodeEntries [⟨['a', ';', 'b'], 1, 2⟩]) ≠
        Except.ok [⟨['a', ';', 'b'], 1, 2⟩] := by
  refine ⟨by decide, by decide⟩

/-- C8 (amended): for every list of `(name, pid, cpu_ticks)` triples whose
names contain neither the field separator `;` nor a line break and whose
numeric fields are `u64` values, decoding the encoded line format
reproduces the original triples exactly. -/
theorem c8_decode_encode_id :
    ∀ es : List SampleEntry,
      (∀ e ∈ es, ';' ∉ e.name ∧ '\n' ∉ e.name ∧ e.pid < U64 ∧ e.cpu_time < U64) →
      decodeRecords (encodeEntries es) = Except.ok es := by
  intro es h
  induction es with
  | nil => rfl
  | cons e es ih =>
    obtain ⟨hsemi, hnl, hpid, hcpu⟩ := h e (by simp)
    have hrest := ih (fun x hx => h x (List.mem_cons_of_mem _ hx))
    unfold decodeRecords at hrest ⊢
    rw [show encodeEntries (e :: es) = lineOf e ++ '\n' :: encodeEntries es from rfl,
      linesOf_cons_line (lineOf e) _ (lineOf_no_newline e hnl), stripCR_lineOf e]
    unfold processLines
    rw [parseLine_lineOf e hsemi hpid hcpu, hrest]

/-- C8 witness: the round trip at two concrete records. -/
theorem c8_decode_encode_id_witness :
    decodeRecords (encodeEntries [⟨['x'], 17, 42⟩, ⟨[], 0, 7⟩]) =
      Except.ok [⟨['x'], 17, 42⟩, ⟨[], 0, 7⟩] :=
  c8_decode_encode_id [⟨['x'], 17, 42⟩, ⟨[], 0, 7⟩] (by decide)

/-! ## Helper lemmas about sorting, ranking, and capping -/

theorem sortAsc_perm (l : List (TimeEnum × Nat)) : (sortAsc l).Perm l :=
  List.perm_insertionSort _ l

theorem sortAsc_sorted (l : List (TimeEnum × Nat)) : (sortAsc l).Sorted ascSample :=
  List.sorted_insertionSort _ l

theorem sortDesc_perm (l : List EndEntry) : (sortDesc l).Perm l :=
  List.perm_insertionSort _ l

theorem sortDesc_sorted (l : List EndEntry) : (sortDesc l).Sorted rdesc :=
  List.sorted_insertionSort _ l

theorem rankAndCap_sorted (l : List EndEntry) : (rankAndCap l).Sorted rdesc := by
  unfold rankAndCap
  by_cases h : 16 < (sortDesc l).length
  · rw [if_pos h]
    exact (sortDesc_sorted l).sublist (List.take_sublist 15 (sortDesc l))
  · rw [if_neg h]
    exact sortDesc_sorted l

theorem rankAndCap_of_le (l : List EndEntry) (h : l.length ≤ 16) :
    rankAndCap l = sortDesc l := by
  unfold rankAndCap
  rw [if_neg (by rw [(sortDesc_perm l).length_eq]; omega)]

theorem rankAndCap_of_gt (l : List EndEntry) (h : 16 < l.length) :
    rankAndCap l = (sortDesc l).take 15 := by
  unfold rankAndCap
  rw [if_pos (by rw [(sortDesc_perm l).length_eq]; omega)]

theorem rankAndCap_length (l : List EndEntry) :
    (rankAndCap l).length = if 16 < l.length then 15 else l.length := by
  by_cases h : 16 < l.length
  · rw [if_pos h, rankAndCap_of_gt l h, List.length_take, (sortDesc_perm l).length_eq]
    omega
  · rw [if_neg h, rankAndCap_of_le l (by omega), (sortDesc_perm l).length_eq]

/-- Two sorted-descending permutations of each other with pairwise distinct
totals are equal: the ranked order is unique when no totals tie. -/
theorem eq_of_perm_sorted_distinct :
    ∀ (l₁ l₂ : List EndEntry), l₁.Perm l₂ → l₁.Sorted rdesc → l₂.Sorted rdesc →
      l₁.Pairwise (fun a b => a.total_cpu_time ≠ b.total_cpu_time) → l₁ = l₂ := by
  intro l₁
  induction l₁ with
  | nil =>
    intro l₂ hp _ _ _
    exact hp.nil_eq
  | cons a t ih =>
    intro l₂ hp hs1 hs2 hd
    cases l₂ with
    | nil => exact absurd hp.symm.nil_eq (by simp)
    | cons b t₂ =>
      have hab : a = b := by
        by_contra hne
        have hbin : b ∈ a :: t := hp.symm.subset (by simp)
        have hain : a ∈ b :: t₂ := hp.subset (by simp)
        have hb_t : b ∈ t := by
          rcases List.mem_cons.1 hbin with h | h
          · exact absurd h.symm hne
          · exact h
        have ha_t2 : a ∈ t₂ := by
          rcases List.mem_cons.1 hain with h | h
          · exact absurd h hne
          · exact h
        have h1 : rdesc a b := List.rel_of_sorted_cons hs1 b hb_t
        have h2 : rdesc b a := List.rel_of_sorted_cons hs2 a ha_t2
        exact (List.pairwise_cons.1 hd).1 b hb_t (Nat.le_antisymm h2 h1)
      subst hab
      rw [ih t₂ hp.cons_inv hs1.of_cons hs2.of_cons (List.pairwise_cons.1 hd).2]

/-- The shape of a successful `get_values` run: a walk result, ranked and
capped, together with the window duration. -/
theorem getValuesWith_ok (order : List Str) (rate : Nat) (v0 : Processes)
    (rest : List Processes) (r : EndEntries)
    (h : getValuesWith order rate (v0 :: rest) = Except.ok r) :
    ∃ ends, walkProcesses rate (buildMap v0.time (v0 :: rest)) order = Except.ok ends ∧
      r.end_entries = rankAndCap ends := by
  simp only [getValuesWith] at h
  cases hw : walkProcesses rate (buildMap v0.time (v0 :: rest)) order with
  | error p => rw [hw] at h; exact absurd h (by simp)
  | ok ends =>
    rw [hw] at h
    refine ⟨ends, rfl, ?_⟩
    injection h with h
    rw [← h]

/-! ## Helper lemmas about the process map builder -/

theorem teSub_timeDiff (a b : TimeEnum) : ∃ v, teSub a b = TimeEnum.timeDiff v := by
  cases a <;> cases b <;> exact ⟨_, rfl⟩

theorem alookup_none_iff (m : PMap) (k : Str) :
    alookup m k = none ↔ k ∉ m.map Prod.fst := by
  induction m with
  | nil => simp [alookup]
  | cons q r ih =>
    obtain ⟨k', v⟩ := q
    unfold alookup
    by_cases h : k' = k
    · simp [h]
    · rw [if_neg h, ih, List.map_cons]
      constructor
      · intro hnm hmem
        rcases List.mem_cons.1 hmem with hk | hk
        · exact h hk.symm
        · exact hnm hk
      · intro hnm hmem
        exact hnm (List.mem_cons_of_mem _ hmem)

theorem alookup_mem (m : PMap) (k : Str) (pe : ProcessEntry)
    (h : alookup m k = some pe) : (k, pe) ∈ m := by
  induction m with
  | nil => simp [alookup] at h
  | cons q r ih =>
    obtain ⟨k', v⟩ := q
    unfold alookup at h
    by_cases hk : k' = k
    · rw [if_pos hk] at h
      injection h with h
      subst hk h
      simp
    · rw [if_neg hk] at h
      exact List.mem_cons_of_mem _ (ih h)

theorem upsertSample_ne_nil (t : TimeEnum) (c : Nat) (s : List (TimeEnum × Nat)) :
    upsertSample t c s ≠ [] := by
  cases s with
  | nil => simp [upsertSample]
  | cons q r =>
    obtain ⟨t', v⟩ := q
    unfold upsertSample
    by_cases h : t' = t <;> simp [h]

theorem mem_upsertSample (t : TimeEnum) (c : Nat) (s : List (TimeEnum × Nat))
    (p : TimeEnum × Nat) (hp : p ∈ upsertSample t c s) :
    p.1 = t ∨ ∃ q ∈ s, p.1 = q.1 := by
  induction s with
  | nil => simp [upsertSample] at hp; simp [hp]
  | cons q r ih =>
    obtain ⟨t', v⟩ := q
    unfold upsertSample at hp
    by_cases h : t' = t
    · rw [if_pos h] at hp
      rcases List.mem_cons.1 hp with rfl | hmem
      · exact Or.inl h
      · exact Or.inr ⟨p, List.mem_cons_of_mem _ hmem, rfl⟩
    · rw [if_neg h] at hp
      rcases List.mem_cons.1 hp with rfl | hmem
      · exact Or.inr ⟨(t', v), by simp, rfl⟩
      · rcases ih hmem with h1 | ⟨q, hq, hq1⟩
        · exact Or.inl h1
        · exact Or.inr ⟨q, List.mem_cons_of_mem _ hq, hq1⟩

theorem fst_upsertSample (t : TimeEnum) (c : Nat) (s : List (TimeEnum × Nat)) :
    (upsertSample t c s).map Prod.fst = s.map Prod.fst ∨
      (upsertSample t c s).map Prod.fst = s.map Prod.fst ++ [t] := by
  induction s with
  | nil => simp [upsertSample]
  | cons q r ih =>
    obtain ⟨t', v⟩ := q
    unfold upsertSample
    by_cases h : t' = t
    · rw [if_pos h]; simp
    · rw [if_neg h]
      rcases ih with h1 | h1 <;> simp [h1]

theorem upsertSample_nodup (t : TimeEnum) (c : Nat) (s : List (TimeEnum × Nat))
    (hn : (s.map Prod.fst).Nodup) : ((upsertSample t c s).map Prod.fst).Nodup := by
  induction s with
  | nil => simp [upsertSample]
  | cons q r ih =>
    obtain ⟨t', v⟩ := q
    unfold upsertSample
    by_cases h : t' = t
    · rw [if_pos h]
      simpa using hn
    · rw [if_neg h]
      simp only [List.map_cons, List.nodup_cons] at hn ⊢
      refine ⟨?_, ih hn.2⟩
      intro hmem
      obtain ⟨p, hp, hp1⟩ := List.mem_map.1 hmem
      rcases mem_upsertSample t c r p hp with h1 | ⟨q', hq', hq1⟩
      · exact h (hp1 ▸ h1)
      · exact hn.1 (hp1 ▸ hq1 ▸ List.mem_map_of_mem Prod.fst hq')

theorem map_update_keys (m : PMap) (f : ProcessEntry → ProcessEntry) (name : Str) :
    ((m.map fun q => if q.1 = name then (q.1, f q.2) else q).map Prod.fst) =
      m.map Prod.fst := by
  induction m with
  | nil => rfl
  | cons q r ih =>
    simp only [List.map_cons, ih]
    by_cases h : q.1 = name <;> simp [h]

theorem addEntry_some (tz t : TimeEnum) (m : PMap) (e : SampleEntry) (pe : ProcessEntry)
    (h : alookup m e.name = some pe) :
    addEntry tz t m e =
      m.map fun q =>
        if q.1 = e.name then (q.1, updSamples (teSub t tz) e.cpu_time q.2) else q := by
  unfold addEntry
  rw [h]

theorem addEntry_none (tz t : TimeEnum) (m : PMap) (e : SampleEntry)
    (h : alookup m e.name = none) :
    addEntry tz t m e = m ++ [(e.name, ⟨e.name, 0, [(teSub t tz, e.cpu_time)]⟩)] := by
  unfold addEntry
  rw [h]

theorem addEntry_wf (tz t : TimeEnum) (m : PMap) (e : SampleEntry) (h : PMapWF m) :
    PMapWF (addEntry tz t m e) := by
  obtain ⟨hkeys, hent⟩ := h
  cases hl : alookup m e.name with
  | some pe =>
    rw [addEntry_some tz t m e pe hl]
    refine ⟨by rw [map_update_keys]; exact hkeys, ?_⟩
    intro q hq
    obtain ⟨q0, hq0, rfl⟩ := List.mem_map.1 hq
    obtain ⟨hne, hnd, htd⟩ := hent q0 hq0
    by_cases hb : q0.1 = e.name
    · rw [if_pos hb]
      refine ⟨upsertSample_ne_nil _ _ _, upsertSample_nodup _ _ _ hnd, ?_⟩
      intro p hp
      rcases mem_upsertSample (teSub t tz) e.cpu_time q0.2.samples p hp with h1 | ⟨q', hq', hq1⟩
      · obtain ⟨v, hv⟩ := teSub_timeDiff t tz
        exact ⟨v, h1 ▸ hv⟩
      · obtain ⟨v, hv⟩ := htd q' hq'
        exact ⟨v, hq1 ▸ hv⟩
    · rw [if_neg hb]
      exact ⟨hne, hnd, htd⟩
  | none =>
    rw [addEntry_none tz t m e hl]
    constructor
    · rw [List.map_append]
      refine hkeys.append (by simp) ?_
      intro x hx hx2
      simp only [List.map_cons, List.map_nil, List.mem_singleton] at hx2
      subst hx2
      exact (alookup_none_iff m e.name).1 hl hx
    · intro q hq
      rcases List.mem_append.1 hq with hq | hq
      · exact hent q hq
      · simp only [List.mem_singleton] at hq
        subst hq
        refine ⟨by simp, by simp, ?_⟩
        intro p hp
        simp only [List.mem_singleton] at hp
        subst hp
        obtain ⟨v, hv⟩ := teSub_timeDiff t tz
        exact ⟨v, hv⟩

theorem addEntries_wf (tz t : TimeEnum) (es : List SampleEntry) :
    ∀ m : PMap, PMapWF m → PMapWF (addEntries tz t m es) := by
  induction es with
  | nil => intro m h; exact h
  | cons e es ih => intro m h; exact ih _ (addEntry_wf tz t m e h)

theorem buildMapAux_wf (tz : TimeEnum) (vs : List Processes) :
    ∀ m : PMap, PMapWF m → PMapWF (buildMapAux tz m vs) := by
  induction vs with
  | nil => intro m h; exact h
  | cons v vs ih => intro m h; exact ih _ (addEntries_wf tz v.time v.entries m h)

theorem buildMap_wf (tz : TimeEnum) (vs : List Processes) : PMapWF (buildMap tz vs) :=
  buildMapAux_wf tz vs [] ⟨List.nodup_nil, by simp⟩

theorem mapOf_wf (vs : List Processes) : PMapWF (mapOf vs) := by
  cases vs with
  | nil => exact ⟨List.nodup_nil, fun q hq => absurd hq (by simp [mapOf])⟩
  | cons v0 rest => exact buildMap_wf v0.time (v0 :: rest)

theorem mem_keys_addEntry (tz t : TimeEnum) (m : PMap) (e : SampleEntry) (x : Str) :
    x ∈ (addEntry tz t m e).map Prod.fst ↔ x ∈ m.map Prod.fst ∨ x = e.name := by
  cases hl : alookup m e.name with
  | some pe =>
    rw [addEntry_some tz t m e pe hl, map_update_keys]
    constructor
    · exact Or.inl
    · intro hx
      rcases hx with hx | hx
      · exact hx
      · subst hx
        exact List.mem_map_of_mem Prod.fst (alookup_mem m e.name pe hl)
  | none =>
    rw [addEntry_none tz t m e hl, List.map_append]
    simp [List.mem_append]

theorem mem_keys_addEntries (tz t : TimeEnum) (es : List SampleEntry) :
    ∀ (m : PMap) (x : Str),
      x ∈ (addEntries tz t m es).map Prod.fst ↔
        x ∈ m.map Prod.fst ∨ x ∈ es.map SampleEntry.name := by
  induction es with
  | nil => intro m x; simp [addEntries]
  | cons e es ih =>
    intro m x
    rw [show addEntries tz t m (e :: es) = addEntries tz t (addEntry tz t m e) es from rfl,
      ih, mem_keys_addEntry]
    simp only [List.map_cons, List.mem_cons]
    tauto

theorem mem_keys_buildMapAux (tz : TimeEnum) (vs : List Processes) :
    ∀ (m : PMap) (x : Str),
      x ∈ (buildMapAux tz m vs).map Prod.fst ↔
        x ∈ m.map Prod.fst ∨ x ∈ allProcNames vs := by
  induction vs with
  | nil => intro m x; simp [buildMapAux, allProcNames]
  | cons v vs ih =>
    intro m x
    rw [show buildMapAux tz m (v :: vs) = buildMapAux tz (addEntries tz v.time m v.entries) vs
        from rfl,
      ih, mem_keys_addEntries]
    simp only [allProcNames, List.mem_append]
    tauto

theorem mem_keys_buildMap (tz : TimeEnum) (vs : List Processes) (x : Str) :
    x ∈ (buildMap tz vs).map Prod.fst ↔ x ∈ allProcNames vs := by
  rw [show buildMap tz vs = buildMapAux tz [] vs from rfl, mem_keys_buildMapAux]
  simp

theorem keys_length_buildMap (tz : TimeEnum) (vs : List Processes) :
    ((buildMap tz vs).map Prod.fst).length = (allProcNames vs).dedup.length := by
  have h1 : ((buildMap tz vs).map Prod.fst).Nodup := (buildMap_wf tz vs).1
  have h2 : (allProcNames vs).dedup.Nodup := List.nodup_dedup _
  rw [← List.toFinset_card_of_nodup h1, ← List.toFinset_card_of_nodup h2]
  congr 1
  ext x
  simp only [List.mem_toFinset, List.mem_dedup]
  exact mem_keys_buildMap tz vs x

/-! ## Helper lemmas about the per-process walk and the map iteration -/

theorem walkAll_error (rate : Nat) (es : List (TimeEnum × Nat)) :
    ∀ (s : WalkState) (p : GvPanic),
      walkAll rate s es = Except.error p → p = GvPanic.divByZeroPanic := by
  induction es with
  | nil => intro s p h; simp [walkAll] at h
  | cons e es ih =>
    intro s p h
    cases hw : walkStep rate s e with
    | error p' =>
      simp only [walkAll, hw] at h
      injection h with h
      exact h ▸ walkStep_error rate s e p' hw
    | ok s' =>
      simp only [walkAll, hw] at h
      exact ih s' p h

theorem walkAll_ok_of_bound (rate : Nat) (hr : 0 < rate) :
    ∀ (es : List (TimeEnum × Nat)),
      (∀ p ∈ es, ∀ v, p.1 = TimeEnum.timeDiff v → rate * v < U64) →
      ∀ s : WalkState, ∃ s', walkAll rate s es = Except.ok s' := by
  intro es
  induction es with
  | nil => intro _ s; exact ⟨s, rfl⟩
  | cons e es ih =>
    intro hb s
    have hstep : ∃ s1, walkStep rate s e = Except.ok s1 := by
      obtain ⟨t, c⟩ := e
      cases t with
      | dateTime v => exact ⟨_, rfl⟩
      | timeDiff v =>
        by_cases hv : v - s.prevTime = 0
        · exact ⟨{ s with total := u64add s.total (clampDelta c s.prevSample.cpu_time) },
            by simp [walkStep, hv]⟩
        · have hvb : rate * v < U64 := hb (TimeEnum.timeDiff v, c) (by simp) v rfl
          have hdt : rate * (v - s.prevTime) < U64 :=
            lt_of_le_of_lt (Nat.mul_le_mul_left rate (Nat.sub_le v s.prevTime)) hvb
          have hpos : 0 < rate * (v - s.prevTime) := Nat.mul_pos hr (by omega)
          have hdiv : ¬((rate * (v - s.prevTime)) % U64 = 0) := by
            rw [Nat.mod_eq_of_lt hdt]
            omega
          exact ⟨⟨u64add s.total (clampDelta c s.prevSample.cpu_time),
            s.emitted ++
              [⟨clampDelta c s.prevSample.cpu_time / (rate * (v - s.prevTime) % U64) * 100 % U64,
                TimeEnum.timeDiff v⟩],
            ⟨c, TimeEnum.timeDiff v⟩, v⟩, by simp [walkStep, hv, hdiv]⟩
    obtain ⟨s1, hs1⟩ := hstep
    obtain ⟨s', hs'⟩ := ih (fun p hp v hv => hb p (List.mem_cons_of_mem _ hp) v hv) s1
    refine ⟨s', ?_⟩
    simp only [walkAll, hs1]
    exact hs'

theorem sortAsc_nil_of (l : List (TimeEnum × Nat)) (h : sortAsc l = []) : l = [] := by
  have hp := sortAsc_perm l
  rw [h] at hp
  exact hp.nil_eq.symm

theorem processEntryToEnd_eq (rate : Nat) (pe : ProcessEntry) (e0 : TimeEnum × Nat)
    (rest : List (TimeEnum × Nat)) (hs : sortAsc pe.samples = e0 :: rest) :
    processEntryToEnd rate pe =
      match walkAll rate ⟨0, [], ⟨e0.2, e0.1⟩,
          match e0.1 with
          | .timeDiff v => v
          | .dateTime _ => 0⟩ (e0 :: rest) with
      | .error p => .error p
      | .ok s => .ok ⟨pe.name, s.total, s.emitted⟩ := by
  unfold processEntryToEnd
  rw [hs]

theorem processEntryToEnd_error (rate : Nat) (pe : ProcessEntry) (hwf : PEntryWF pe)
    (p : GvPanic) (h : processEntryToEnd rate pe = Except.error p) :
    p = GvPanic.divByZeroPanic := by
  cases hs : sortAsc pe.samples with
  | nil => exact absurd (sortAsc_nil_of pe.samples hs) hwf.1
  | cons e0 rest =>
    rw [processEntryToEnd_eq rate pe e0 rest hs] at h
    cases hw : walkAll rate ⟨0, [], ⟨e0.2, e0.1⟩,
        match e0.1 with
        | .timeDiff v => v
        | .dateTime _ => 0⟩ (e0 :: rest) with
    | error p' =>
      rw [hw] at h
      injection h with h
      exact h ▸ walkAll_error rate (e0 :: rest) _ p' hw
    | ok s =>
      rw [hw] at h
      exact absurd h (by simp)

theorem processEntryToEnd_ok_of_bound (rate : Nat) (hr : 0 < rate) (pe : ProcessEntry)
    (hwf : PEntryWF pe)
    (hb : ∀ p ∈ pe.samples, ∀ v, p.1 = TimeEnum.timeDiff v → rate * v < U64) :
    ∃ e, processEntryToEnd rate pe = Except.ok e := by
  cases hs : sortAsc pe.samples with
  | nil => exact absurd (sortAsc_nil_of pe.samples hs) hwf.1
  | cons e0 rest =>
    have hb' : ∀ p ∈ e0 :: rest, ∀ v, p.1 = TimeEnum.timeDiff v → rate * v < U64 := by
      intro p hp v hv
      exact hb p ((sortAsc_perm pe.samples).subset (hs.symm ▸ hp)) v hv
    obtain ⟨s', hw⟩ := walkAll_ok_of_bound rate hr (e0 :: rest) hb'
      ⟨0, [], ⟨e0.2, e0.1⟩,
        match e0.1 with
        | .timeDiff v => v
        | .dateTime _ => 0⟩
    refine ⟨⟨pe.name, s'.total, s'.emitted⟩, ?_⟩
    rw [processEntryToEnd_eq rate pe e0 rest hs, hw]

theorem walkProcesses_error_val (rate : Nat) (m : PMap) (hwf : ∀ q ∈ m, PEntryWF q.2) :
    ∀ (ns : List Str) (p : GvPanic),
      walkProcesses rate m ns = Except.error p → p = GvPanic.divByZeroPanic := by
  intro ns
  induction ns with
  | nil => intro p h; simp [walkProcesses] at h
  | cons n ns ih =>
    intro p h
    cases hl : alookup m n with
    | none =>
      simp only [walkProcesses, hl] at h
      exact ih p h
    | some pe =>
      cases hp : processEntryToEnd rate pe with
      | error p' =>
        simp only [walkProcesses, hl, hp, Except.error.injEq] at h
        exact h ▸ processEntryToEnd_error rate pe (hwf (n, pe) (alookup_mem m n pe hl)) p' hp
      | ok e =>
        cases hw : walkProcesses rate m ns with
        | error p' =>
          simp only [walkProcesses, hl, hp, hw, Except.error.injEq] at h
          exact h ▸ ih p' hw
        | ok rest =>
          simp only [walkProcesses, hl, hp, hw] at h
          exact absurd h (by simp)

theorem walkProcesses_filterMap (rate : Nat) (m : PMap) :
    ∀ ns : List Str,
      (∀ n ∈ ns, ∀ pe, alookup m n = some pe → ∃ e, processEntryToEnd rate pe = Except.ok e) →
      walkProcesses rate m ns = Except.ok (ns.filterMap (endOf rate m)) := by
  intro ns
  induction ns with
  | nil => intro _; rfl
  | cons n ns ih =>
    intro hok
    have hrest := ih (fun x hx => hok x (List.mem_cons_of_mem _ hx))
    cases hl : alookup m n with
    | none =>
      simp only [walkProcesses, hl, hrest, List.filterMap_cons, endOf, hl]
    | some pe =>
      obtain ⟨e, he⟩ := hok n (by simp) pe hl
      simp only [walkProcesses, hl, he, hrest, List.filterMap_cons, endOf, Except.toOption]

theorem walkProcesses_length (rate : Nat) (m : PMap) :
    ∀ (ns : List Str) (l : List EndEntry),
      (∀ n ∈ ns, n ∈ m.map Prod.fst) →
      walkProcesses rate m ns = Except.ok l → l.length = ns.length := by
  intro ns
  induction ns with
  | nil =>
    intro l _ h
    simp only [walkProcesses] at h
    injection h with h
    rw [← h]
    rfl
  | cons n ns ih =>
    intro l hmem h
    cases hl : alookup m n with
    | none =>
      exact absurd ((alookup_none_iff m n).1 hl) (by simp [hmem n (by simp)])
    | some pe =>
      cases hp : processEntryToEnd rate pe with
      | error p' =>
        simp only [walkProcesses, hl, hp] at h
        exact absurd h (by simp)
      | ok e =>
        cases hw : walkProcesses rate m ns with
        | error p' =>
          simp only [walkProcesses, hl, hp, hw] at h
          exact absurd h (by simp)
        | ok rest =>
          simp only [walkProcesses, hl, hp, hw] at h
          have hlen := ih rest (fun x hx => hmem x (List.mem_cons_of_mem _ hx)) hw
          injection h with h
          rw [← h]
          simp [hlen]

theorem walkProcesses_error_of_bad (rate : Nat) (m : PMap) :
    ∀ (ns : List Str) (n : Str) (pe : ProcessEntry),
      n ∈ ns → alookup m n = some pe →
      (∀ e, processEntryToEnd rate pe ≠ Except.ok e) →
      ∃ p, walkProcesses rate m ns = Except.error p := by
  intro ns
  induction ns with
  | nil => intro n pe hn _ _; exact absurd hn (by simp)
  | cons x ns ih =>
    intro n pe hn hpe hbad
    cases hl : alookup m x with
    | none =>
      rcases List.mem_cons.1 hn with rfl | hn'
      · exact absurd hpe (by simp [hl])
      · obtain ⟨p, hp⟩ := ih n pe hn' hpe hbad
        exact ⟨p, by simp only [walkProcesses, hl]; exact hp⟩
    | some pex =>
      cases hp : processEntryToEnd rate pex with
      | error p' => exact ⟨p', by simp only [walkProcesses, hl, hp]⟩
      | ok e =>
        have hn' : n ∈ ns := by
          rcases List.mem_cons.1 hn with rfl | hn'
          · rw [hl] at hpe
            injection hpe with hpe
            exact absurd (hpe ▸ hp) (hbad e)
          · exact hn'
        obtain ⟨p, hw⟩ := ih n pe hn' hpe hbad
        exact ⟨p, by simp only [walkProcesses, hl, hp, hw]⟩

theorem processEntryToEnd_err_of_zero_rate (pe : ProcessEntry) (hwf : PEntryWF pe)
    (hlen : 2 ≤ pe.samples.length) :
    processEntryToEnd 0 pe = Except.error GvPanic.divByZeroPanic := by
  obtain ⟨hne, hnd, htd⟩ := hwf
  have hlen2 : 2 ≤ (sortAsc pe.samples).length := by
    rw [(sortAsc_perm pe.samples).length_eq]
    exact hlen
  cases hs : sortAsc pe.samples with
  | nil => rw [hs] at hlen2; simp at hlen2
  | cons e0 rest =>
    cases hrest : rest with
    | nil => rw [hs, hrest] at hlen2; simp at hlen2
    | cons e1 rest' =>
      subst hrest
      have he0m : e0 ∈ pe.samples := (sortAsc_perm pe.samples).subset (hs.symm ▸ (by simp))
      have he1m : e1 ∈ pe.samples := (sortAsc_perm pe.samples).subset (hs.symm ▸ (by simp))
      obtain ⟨v0, hv0⟩ := htd e0 he0m
      obtain ⟨v1, hv1⟩ := htd e1 he1m
      have hsorted := sortAsc_sorted pe.samples
      rw [hs] at hsorted
      have hle : ascSample e0 e1 := List.rel_of_sorted_cons hsorted e1 (by simp)
      have hv01 : v0 ≤ v1 := by
        unfold ascSample at hle
        rw [hv0, hv1] at hle
        simpa [timeLE] using hle
      have hnds : ((sortAsc pe.samples).map Prod.fst).Nodup :=
        ((sortAsc_perm pe.samples).map Prod.fst).nodup_iff.2 hnd
      rw [hs] at hnds
      have hne01 : e0.1 ≠ e1.1 := by
        simp only [List.map_cons, List.nodup_cons] at hnds
        intro heq
        exact hnds.1 (by rw [heq]; exact List.mem_cons_self _ _)
      have hv01s : v0 < v1 := by
        have hne' : v0 ≠ v1 := fun hvv => hne01 (by rw [hv0, hv1, hvv])
        omega
      rw [processEntryToEnd_eq 0 pe e0 (e1 :: rest') hs]
      obtain ⟨t0, c0⟩ := e0
      obtain ⟨t1, c1⟩ := e1
      simp only at hv0 hv1
      subst hv0
      subst hv1
      have hstep0 : walkStep 0 ⟨0, [], ⟨c0, TimeEnum.timeDiff v0⟩, v0⟩
          (TimeEnum.timeDiff v0, c0) =
          Except.ok ⟨u64add 0 (clampDelta c0 c0), [], ⟨c0, TimeEnum.timeDiff v0⟩, v0⟩ := by
        simp [walkStep]
      have hstep1 : walkStep 0 ⟨u64add 0 (clampDelta c0 c0), [], ⟨c0, TimeEnum.timeDiff v0⟩, v0⟩
          (TimeEnum.timeDiff v1, c1) = Except.error GvPanic.divByZeroPanic := by
        have hdt : ¬(v1 - v0 = 0) := by omega
        simp [walkStep, hdt]
      simp only [walkAll, hstep0, hstep1]

/-! ## C10: division guarded against zero duration, not zero rate -/

/-- C10 counterexample: with tick rate `2 ^ 32 > 0` and two snapshots
`2 ^ 32` seconds apart, the `u64` product `rate * delta_time` wraps to 0,
so the divisor is zero on an emitted step despite a positive tick rate, and
the derivation panics with a division by zero. -/
theorem c10_counterexample :
    (0 : Nat) < 2 ^ 32 ∧
      getValues (2 ^ 32) exC10 = Except.error GvPanic.divByZeroPanic := by
  refine ⟨by decide, by decide⟩

/-- C10 (amended): with a positive tick rate and no `u64` overflow in
`tick_rate * relative_time`, every step's divisor is nonzero and the
derivation succeeds; with tick rate 0, any input in which some process has
entries at two distinct relative times makes the derivation divide by zero
(a panic, not a typed error). -/
theorem c10_divisor_guard :
    (∀ (order : List Str) (rate : Nat) (vs : List Processes) (v0 : Processes)
        (rest : List Processes),
      vs = v0 :: rest → 0 < rate →
      (∀ q ∈ mapOf vs, ∀ p ∈ q.2.samples, rate * timeVal p.1 < U64) →
      ∃ r, getValuesWith order rate vs = Except.ok r) ∧
    (∀ (order : List Str) (vs : List Processes) (n : Str) (pe : ProcessEntry),
      alookup (mapOf vs) n = some pe → 2 ≤ pe.samples.length → n ∈ order →
      getValuesWith order 0 vs = Except.error GvPanic.divByZeroPanic) := by
  constructor
  · intro order rate vs v0 rest hvs hr hb
    subst hvs
    have hmo : mapOf (v0 :: rest) = buildMap v0.time (v0 :: rest) := rfl
    have hwf := buildMap_wf v0.time (v0 :: rest)
    have hok : ∀ n ∈ order, ∀ pe, alookup (buildMap v0.time (v0 :: rest)) n = some pe →
        ∃ e, processEntryToEnd rate pe = Except.ok e := by
      intro n _ pe hl
      have hqm : (n, pe) ∈ buildMap v0.time (v0 :: rest) := alookup_mem _ n pe hl
      refine processEntryToEnd_ok_of_bound rate hr pe (hwf.2 (n, pe) hqm) ?_
      intro p hp v hv
      have := hb (n, pe) (hmo ▸ hqm) p hp
      rw [hv] at this
      exact this
    have hw := walkProcesses_filterMap rate _ order hok
    cases hg : getValuesWith order rate (v0 :: rest) with
    | ok r => exact ⟨r, rfl⟩
    | error p =>
      simp only [getValuesWith, hw] at hg
      exact absurd hg (by simp)
  · intro order vs n pe hl hlen hn
    cases vs with
    | nil => exact absurd hl (by simp [mapOf, alookup])
    | cons v0 rest =>
      have hmo : mapOf (v0 :: rest) = buildMap v0.time (v0 :: rest) := rfl
      rw [hmo] at hl
      have hwf := buildMap_wf v0.time (v0 :: rest)
      have hq := hwf.2 (n, pe) (alookup_mem _ n pe hl)
      have herr : processEntryToEnd 0 pe = Except.error GvPanic.divByZeroPanic :=
        processEntryToEnd_err_of_zero_rate pe hq hlen
      have hbad : ∀ e, processEntryToEnd 0 pe ≠ Except.ok e := by
        intro e he
        rw [herr] at he
        exact absurd he (by simp)
      obtain ⟨p, hw⟩ := walkProcesses_error_of_bad 0 _ order n pe hn hl hbad
      have hp := walkProcesses_error_val 0 _ hwf.2 order p hw
      subst hp
      simp only [getValuesWith, hw]

/-- C10 witness: both halves at concrete inputs — the spec's example input
succeeds with rate 1, and the same input with rate 0 panics. -/
theorem c10_divisor_guard_witness :
    (∃ r, getValuesWith [['a']] 1 exC1 = Except.ok r) ∧
    getValuesWith [['a']] 0 exC1 = Except.error GvPanic.divByZeroPanic :=
  ⟨c10_divisor_guard.1 [['a']] 1 exC1 ⟨TimeEnum.dateTime 10, [⟨['a'], 1, 200⟩]⟩
      [⟨TimeEnum.dateTime 12, [⟨['a'], 1, 400⟩]⟩] rfl (by decide) (by decide),
   c10_divisor_guard.2 [['a']] exC1 ['a']
      ⟨['a'], 0, [(TimeEnum.timeDiff 0, 200), (TimeEnum.timeDiff 2, 400)]⟩
      (by decide) (by decide) (by decide)⟩

/-! ## C2: descending rank and the 15-of-more-than-16 cap -/

/-- C2: every successful derivation result is sorted descending by
`total_cpu_time`; the ranked list is kept whole when it has at most 16
entries and is cut to exactly its first 15 entries when it has more than
16; and when the iteration order enumerates the map's keys, the number of
returned entries is the number of distinct process names, capped by the
same rule (so 20 distinct names return exactly 15 entries). -/
theorem c2_ranked_capped :
    (∀ (order : List Str) (rate : Nat) (vs : List Processes) (r : EndEntries),
      getValuesWith order rate vs = Except.ok r → r.end_entries.Sorted rdesc) ∧
    (∀ ends : List EndEntry,
      (ends.length ≤ 16 → rankAndCap ends = sortDesc ends) ∧
      (16 < ends.length → rankAndCap ends = (sortDesc ends).take 15) ∧
      (rankAndCap ends).length = if 16 < ends.length then 15 else ends.length) ∧
    (∀ (order : List Str) (rate : Nat) (vs : List Processes) (r : EndEntries),
      order.Perm ((mapOf vs).map Prod.fst) →
      getValuesWith order rate vs = Except.ok r →
      r.end_entries.length =
        if 16 < (allProcNames vs).dedup.length then 15
        else (allProcNames vs).dedup.length) := by
  refine ⟨?_, ?_, ?_⟩
  · intro order rate vs r h
    cases vs with
    | nil => exact absurd h (by simp [getValuesWith])
    | cons v0 rest =>
      obtain ⟨ends, _, hr⟩ := getValuesWith_ok order rate v0 rest r h
      rw [hr]
      exact rankAndCap_sorted ends
  · intro ends
    exact ⟨rankAndCap_of_le ends, rankAndCap_of_gt ends, rankAndCap_length ends⟩
  · intro order rate vs r hperm h
    cases vs with
    | nil => exact absurd h (by simp [getValuesWith])
    | cons v0 rest =>
      obtain ⟨ends, hw, hr⟩ := getValuesWith_ok order rate v0 rest r h
      have hmo : mapOf (v0 :: rest) = buildMap v0.time (v0 :: rest) := rfl
      have hmem : ∀ n ∈ order, n ∈ (buildMap v0.time (v0 :: rest)).map Prod.fst := by
        intro n hn
        have := hperm.subset hn
        rw [hmo] at this
        exact this
      have hlen := walkProcesses_length rate _ order ends hmem hw
      have hkl : order.length = (allProcNames (v0 :: rest)).dedup.length := by
        rw [hperm.length_eq, hmo, keys_length_buildMap]
      rw [hr, rankAndCap_length, hlen, hkl]

/-- C2 witness: twenty distinct process names return exactly 15 sorted
entries. -/
theorem c2_ranked_capped_witness :
    ∃ r, getValues 1 exC20 = Except.ok r ∧ r.end_entries.length = 15 ∧
      r.end_entries.Sorted rdesc := by
  have hok : (getValues 1 exC20).isOk = true := by decide
  cases hr : getValues 1 exC20 with
  | error p => rw [hr] at hok; simp [Except.isOk, Except.toBool] at hok
  | ok r =>
    refine ⟨r, rfl, ?_, c2_ranked_capped.1 _ 1 exC20 r hr⟩
    have hl := c2_ranked_capped.2.2 ((mapOf exC20).map Prod.fst) 1 exC20 r
      (List.Perm.refl _) hr
    rw [hl]
    decide

/-! ## C9: run-to-run determinism and the HashMap iteration order -/

/-- C9 counterexample: two valid iteration orders of the same process map
(permutations of each other, as two runs of Rust's randomly seeded
`HashMap` can produce) give different results on `exC9`, whose two
processes tie on `total_cpu_time`: the ranked order and the serialized
string differ between the two runs. -/
theorem c9_counterexample :
    ([['a'], ['b']] : List Str).Perm [['b'], ['a']] ∧
    getValuesWith [['a'], ['b']] 1 exC9 ≠ getValuesWith [['b'], ['a']] 1 exC9 ∧
    getValuesJson [['a'], ['b']] 1 exC9 ≠ getValuesJson [['b'], ['a']] 1 exC9 := by
  refine ⟨List.Perm.swap ['b'] ['a'] [], by decide, by decide⟩

/-- C9 (amended): the derivation is deterministic up to the map iteration
order, and fully deterministic whenever all per-process totals are
pairwise distinct: any two iteration orders that are permutations of each
other produce the same result struct and the same serialized string. -/
theorem c9_deterministic_given_distinct_totals :
    ∀ (rate : Nat) (vs : List Processes) (o1 o2 : List Str),
      o1.Perm o2 →
      (∀ l, walkProcesses rate (mapOf vs) o1 = Except.ok l →
        l.Pairwise (fun a b => a.total_cpu_time ≠ b.total_cpu_time)) →
      getValuesWith o1 rate vs = getValuesWith o2 rate vs ∧
      getValuesJson o1 rate vs = getValuesJson o2 rate vs := by
  intro rate vs o1 o2 hperm hdist
  have hmain : getValuesWith o1 rate vs = getValuesWith o2 rate vs := by
    cases vs with
    | nil => rfl
    | cons v0 rest =>
      by_cases hbad : ∃ n ∈ o1, ∃ pe, alookup (buildMap v0.time (v0 :: rest)) n = some pe ∧
          ∀ e, processEntryToEnd rate pe ≠ Except.ok e
      · obtain ⟨n, hn, pe, hpe, hb⟩ := hbad
        obtain ⟨p1, hw1⟩ :=
          walkProcesses_error_of_bad rate (buildMap v0.time (v0 :: rest)) o1 n pe hn hpe hb
        obtain ⟨p2, hw2⟩ :=
          walkProcesses_error_of_bad rate (buildMap v0.time (v0 :: rest)) o2 n pe
            (hperm.subset hn) hpe hb
        have hp1 := walkProcesses_error_val rate _ (buildMap_wf v0.time (v0 :: rest)).2 o1 p1 hw1
        have hp2 := walkProcesses_error_val rate _ (buildMap_wf v0.time (v0 :: rest)).2 o2 p2 hw2
        subst hp1
        subst hp2
        simp only [getValuesWith, hw1, hw2]
      · push_neg at hbad
        have hok1 : ∀ n ∈ o1, ∀ pe, alookup (buildMap v0.time (v0 :: rest)) n = some pe →
            ∃ e, processEntryToEnd rate pe = Except.ok e := hbad
        have hok2 : ∀ n ∈ o2, ∀ pe, alookup (buildMap v0.time (v0 :: rest)) n = some pe →
            ∃ e, processEntryToEnd rate pe = Except.ok e :=
          fun n hn => hok1 n (hperm.symm.subset hn)
        have hw1 := walkProcesses_filterMap rate (buildMap v0.time (v0 :: rest)) o1 hok1
        have hw2 := walkProcesses_filterMap rate (buildMap v0.time (v0 :: rest)) o2 hok2
        have hl12 : (o1.filterMap (endOf rate (buildMap v0.time (v0 :: rest)))).Perm
            (o2.filterMap (endOf rate (buildMap v0.time (v0 :: rest)))) :=
          hperm.filterMap _
        have hd1 := hdist _ hw1
        have hsort : sortDesc (o1.filterMap (endOf rate (buildMap v0.time (v0 :: rest)))) =
            sortDesc (o2.filterMap (endOf rate (buildMap v0.time (v0 :: rest)))) := by
          apply eq_of_perm_sorted_distinct
          · exact (sortDesc_perm _).trans (hl12.trans (sortDesc_perm _).symm)
          · exact sortDesc_sorted _
          · exact sortDesc_sorted _
          · exact ((sortDesc_perm _).pairwise_iff (fun h => Ne.symm h)).2 hd1
        have hrc : rankAndCap (o1.filterMap (endOf rate (buildMap v0.time (v0 :: rest)))) =
            rankAndCap (o2.filterMap (endOf rate (buildMap v0.time (v0 :: rest)))) := by
          unfold rankAndCap
          rw [hsort]
        simp only [getValuesWith, hw1, hw2, hrc]
  refine ⟨hmain, ?_⟩
  unfold getValuesJson
  rw [hmain]

/-- C9 witness: with distinct totals (`exC9b`), both iteration orders give
identical results and identical serialized strings. -/
theorem c9_deterministic_given_distinct_totals_witness :
    getValuesWith [['a'], ['b']] 1 exC9b = getValuesWith [['b'], ['a']] 1 exC9b ∧
    getValuesJson [['a'], ['b']] 1 exC9b = getValuesJson [['b'], ['a']] 1 exC9b :=
  c9_deterministic_given_distinct_totals 1 exC9b [['a'], ['b']] [['b'], ['a']]
    (List.Perm.swap ['b'] ['a'] [])
    (fun l hl => by
      have hcomp : walkProcesses 1 (mapOf exC9b) [['a'], ['b']] =
          Except.ok [⟨['a'], 300, [⟨30000, TimeEnum.timeDiff 1⟩]⟩,
            ⟨['b'], 100, [⟨10000, TimeEnum.timeDiff 1⟩]⟩] := by decide
      rw [hcomp] at hl
      injection hl with hl
      rw [← hl]
      decide)
